import Mathlib

/-!
Verification of the personality-prediction pipeline in `src/app.py`.

Strings are modelled as `List Char`; regular-expression scans are embedded as
fueled left-to-right scanners (Python's `re.sub` / `re.findall` find the
leftmost match, consume it, and resume after it).  Python numbers are modelled
as `ℚ`; Python exceptions and the spec's error taxonomy are one inductive type
so that statements can compare the two.
-/

namespace App

/-- Errors a request can surface.  `zeroDivisionError`, `keyError`,
`indexError` and `typeError` model Python runtime exceptions raised by the
code; `configurationError`, `emptyBatchError`, `missingArtifactError` and
`malformedInputError` are the distinguishing error kinds named by the spec
(section 7), kept as distinct constructors so that theorems can compare what
the code raises with what the spec names. -/
inductive PyError where
  | zeroDivisionError
  | keyError (key : String)
  | indexError
  | typeError
  | configurationError
  | emptyBatchError
  | missingArtifactError
  | malformedInputError
deriving DecidableEq

/-- ASCII whitespace, the characters matched by the regex class `\s`
(space, tab, newline, carriage return, vertical tab, form feed). -/
def isSpace (c : Char) : Bool :=
  c.toNat = 32 || c.toNat = 9 || c.toNat = 10 || c.toNat = 13 || c.toNat = 11 || c.toNat = 12

/-- ASCII letter, the character class `[a-zA-Z]` of `app.py` line 48. -/
def isAsciiLetter (c : Char) : Bool :=
  (65 ≤ c.toNat && c.toNat ≤ 90) || (97 ≤ c.toNat && c.toNat ≤ 122)

/-- Lower-case ASCII letter. -/
def isLowerAlpha (c : Char) : Bool :=
  97 ≤ c.toNat && c.toNat ≤ 122

/-- ASCII word character, the regex class `\w` as used on ASCII text
(letters, digits, underscore). -/
def isWordChar (c : Char) : Bool :=
  isAsciiLetter c || (48 ≤ c.toNat && c.toNat ≤ 57) || c.toNat = 95

/-- Lower-casing of a single character as Python's `str.lower` acts on the
ASCII range (the only range that survives the letters-only rewrite). -/
def lowerChar (c : Char) : Char :=
  if 65 ≤ c.toNat && c.toNat ≤ 90 then Char.ofNat (c.toNat + 32) else c

/-- Combined effect on one character of the letters-only rewrite followed by
lower-casing: letters are lower-cased, everything else becomes a space. -/
def spaceify (c : Char) : Char :=
  if isAsciiLetter c then lowerChar c else ' '

/-- Length of the run of copies of `c` at the head of the list. -/
def runLen (c : Char) : List Char → Nat
  | [] => 0
  | d :: ds => if d = c then runLen c ds + 1 else 0

/-- Fueled scanner giving the semantics of `re.sub`: at each position try
`step`; a match returns the replacement text and the matched length `k ≥ 1`,
the scan emits the replacement and resumes after the match; otherwise the
character is kept and the scan moves one position right.  The fuel only bounds
the recursion; `subAll` supplies enough fuel for any input. -/
def scanSub (step : List Char → Option (List Char × Nat)) : Nat → List Char → List Char
  | 0, l => l
  | _ + 1, [] => []
  | fuel + 1, c :: cs =>
    match step (c :: cs) with
    | some (r, k) => r ++ scanSub step fuel (cs.drop (k - 1))
    | none => c :: scanSub step fuel cs

/-- Run a `re.sub`-style scan over the whole input. -/
def subAll (step : List Char → Option (List Char × Nat)) (l : List Char) : List Char :=
  scanSub step l.length l

/-- Fueled scanner giving the semantics of `len(re.findall(...))`: count
leftmost non-overlapping matches, where `step` returns the length of the match
at the current position. -/
def scanCount (step : List Char → Option Nat) : Nat → List Char → Nat
  | 0, _ => 0
  | _ + 1, [] => 0
  | fuel + 1, c :: cs =>
    match step (c :: cs) with
    | some k => 1 + scanCount step fuel (cs.drop (k - 1))
    | none => scanCount step fuel cs

/-- Count all leftmost non-overlapping matches in the input. -/
def countAll (step : List Char → Option Nat) (l : List Char) : Nat :=
  scanCount step l.length l

/-- Fueled splitter giving the semantics of Python's `str.split()`:
maximal runs of non-whitespace, with empties dropped. -/
def splitWsGo : Nat → List Char → List (List Char)
  | 0, _ => []
  | _ + 1, [] => []
  | fuel + 1, c :: cs =>
    if isSpace c then splitWsGo fuel cs
    else (c :: cs.takeWhile (fun d => !isSpace d)) :: splitWsGo fuel (cs.dropWhile (fun d => !isSpace d))

/-- Split on whitespace, dropping empty fields, as `str.split()` does. -/
def splitWs (l : List Char) : List (List Char) := splitWsGo l.length l

/-- Fueled computation of the lower-cased maximal ASCII-letter runs of a
string.  This is a proof-side reformulation of
`split() ∘ lower ∘ letters-only`; the equivalence is proved below. -/
def tokensGo : Nat → List Char → List (List Char)
  | 0, _ => []
  | _ + 1, [] => []
  | fuel + 1, c :: cs =>
    if isAsciiLetter c then
      (lowerChar c :: (cs.takeWhile isAsciiLetter).map lowerChar) ::
        tokensGo fuel (cs.dropWhile isAsciiLetter)
    else tokensGo fuel cs

/-- Lower-cased maximal ASCII-letter runs of a string. -/
def tokens (l : List Char) : List (List Char) := tokensGo l.length l

/-- The literal token `URL` substituted for URLs (`app.py` line 42). -/
def urlTag : List Char := ['U', 'R', 'L']

/-- The literal token `REP` substituted for replies (`app.py` line 43). -/
def repTag : List Char := ['R', 'E', 'P']

/-- The literal `@username` matched by `REPLY_REGEX` (`app.py` line 41)
and by `count_avg_replies` (`app.py` line 75). -/
def repLit : List Char := ['@', 'u', 's', 'e', 'r', 'n', 'a', 'm', 'e']

/-- The scheme prefixes of `URL_REGEX = (https?|ftp)://[^\s]*`
(`app.py` line 40).  At any one position at most one of them can match, so
listing them is a faithful rendering of the alternation. -/
def urlLits : List (List Char) :=
  [['h', 't', 't', 'p', 's', ':', '/', '/'],
   ['h', 't', 't', 'p', ':', '/', '/'],
   ['f', 't', 'p', ':', '/', '/']]

/-- Match of `URL_REGEX` at the current position: a scheme prefix followed by
the greedy run of non-whitespace characters. -/
def urlStep (l : List Char) : Option (List Char × Nat) :=
  (urlLits.find? (fun p => p.isPrefixOf l)).map
    (fun p => (urlTag, p.length + ((l.drop p.length).takeWhile (fun c => !isSpace c)).length))

/-- Match of `REPLY_REGEX` (the literal `@username`) at the current position. -/
def replyTagStep (l : List Char) : Option (List Char × Nat) :=
  if repLit.isPrefixOf l then some (repTag, repLit.length) else none

/-- Match of `(.)\1{3,}` at the current position, replaced by `\1\1\1`
(`app.py` line 47).  `.` does not match a newline, and `\1{3,}` greedily
takes the whole run. -/
def collapseCodeStep : List Char → Option (List Char × Nat)
  | [] => none
  | c :: cs => if c ≠ '\n' ∧ 3 ≤ runLen c cs then some ([c, c, c], 1 + runLen c cs) else none

/-- Step 3 exactly as the spec words it: every run of 4+ identical characters
(no newline exception) is collapsed to exactly 3 repeats. -/
def collapseSpecStep : List Char → Option (List Char × Nat)
  | [] => none
  | c :: cs => if 3 ≤ runLen c cs then some ([c, c, c], 1 + runLen c cs) else none

/-- `URL_REGEX.sub(URL_TAG, text)` (`app.py` line 45). -/
def urlSub (l : List Char) : List Char := subAll urlStep l

/-- `REPLY_REGEX.sub(REPLY_TAG, text)` (`app.py` line 46). -/
def repSub (l : List Char) : List Char := subAll replyTagStep l

/-- `re.sub(r'(.)\1{3,}', r'\1\1\1', text)` (`app.py` line 47). -/
def collapseCode (l : List Char) : List Char := subAll collapseCodeStep l

/-- The spec's wording of step 3: collapse every run of 4+ identical
characters down to exactly 3. -/
def collapseSpec (l : List Char) : List Char := subAll collapseSpecStep l

/-- `re.sub("[^a-zA-Z]", " ", text)` (`app.py` line 48). -/
def lettersOnly (l : List Char) : List Char :=
  l.map (fun c => if isAsciiLetter c then c else ' ')

/-- `str.lower` (`app.py` line 49), acting characterwise. -/
def lowerStr (l : List Char) : List Char := l.map lowerChar

/-- `" ".join(ws)`. -/
def joinSp : List (List Char) → List Char
  | [] => []
  | [w] => w
  | w :: ws => w ++ ' ' :: joinSp ws

/-- `[w for w in words if not w in stops]` (`app.py` line 51). -/
def stopFilter (S : List (List Char)) (ws : List (List Char)) : List (List Char) :=
  ws.filter fun w => decide (¬ w ∈ S)

/-- The pure part of `Dataset.process_tweet` (`app.py` lines 35-52), given the
stopword set `S` for the language. -/
def normalizeCore (S : List (List Char)) (t : List Char) : List Char :=
  joinSp (stopFilter S (splitWs (lowerStr (lettersOnly (collapseCode (repSub (urlSub t)))))))

/-- The spec's seven-step normalization (spec section 4.1), identical to
`normalizeCore` except that step 3 follows the spec's words and collapses
every run of 4+ identical characters, newline included. -/
def normalizeSpecCore (S : List (List Char)) (t : List Char) : List Char :=
  joinSp (stopFilter S (splitWs (lowerStr (lettersOnly (collapseSpec (repSub (urlSub t)))))))

/-- Stopword lookup.  Modelled from the spec: the stopword corpus is an
external resource (NLTK's stopwords corpus, not part of `src/`); per the spec
a language with no known stopword set makes the lookup fail with
`ConfigurationError`. -/
def stopwordsFor (corpus : String → Option (List (List Char))) (language : String) :
    Except PyError (List (List Char)) :=
  match corpus language with
  | some s => .ok s
  | none => .error .configurationError

/-- `Dataset.process_tweet` (`app.py` lines 35-52).  The code performs the
rewrites and then loads the stopword set; an unknown language fails the call
either way, so the failure is checked up front here. -/
def process_tweet (corpus : String → Option (List (List Char))) (language : String)
    (text : List Char) : Except PyError (List Char) :=
  match stopwordsFor corpus language with
  | .error e => .error e
  | .ok S => .ok (normalizeCore S text)

/-- The spec's seven-step `normalize` contract (spec section 4.1), to be
compared with `process_tweet`. -/
def normalizeSpecSeven (corpus : String → Option (List (List Char))) (language : String)
    (text : List Char) : Except PyError (List Char) :=
  match stopwordsFor corpus language with
  | .error e => .error e
  | .ok S => .ok (normalizeSpecCore S text)

/-- The emoticon alternatives of the regex on `app.py` line 59, flattened in
the regex engine's backtracking order: the first branch
`(?::|;|:\'|=)(?:-)?(?:\)|\(|D|P|d|p|3)` enumerates its group choices
left-to-right with the optional `-` tried first, followed by the literal
branches `<3`, `</3`, `xd`, `xD`, `XD`. -/
def emoAlts : List (List Char) :=
  ((([":", ";", ":'", "="].map String.toList).flatMap fun p1 =>
    (["-", ""].map String.toList).flatMap fun d =>
      (([")", "(", "D", "P", "d", "p", "3"].map String.toList).map fun p3 => p1 ++ d ++ p3)))
  ++ [['<', '3'], ['<', '/', '3'], ['x', 'd'], ['x', 'D'], ['X', 'D']]

/-- Match of the emoticon regex at the current position: the first
alternative (in backtracking order) that is a prefix of the remaining text. -/
def emoStep (l : List Char) : Option Nat :=
  (emoAlts.find? (fun a => a.isPrefixOf l)).map List.length

/-- Match of `#(\w+)` at the current position. -/
def hashStep : List Char → Option Nat
  | [] => none
  | c :: cs =>
    if c = '#' then
      if 1 ≤ (cs.takeWhile isWordChar).length then some (1 + (cs.takeWhile isWordChar).length)
      else none
    else none

/-- Match of `!+` at the current position (greedy, so a maximal run). -/
def exclStep : List Char → Option Nat
  | [] => none
  | c :: cs => if c = '!' then some (1 + (cs.takeWhile (fun d => d == '!')).length) else none

/-- Match of `(\w)\1{3,}` at the current position (greedy, so the whole run
of 4 or more identical word characters). -/
def repeatStep : List Char → Option Nat
  | [] => none
  | c :: cs => if isWordChar c ∧ 3 ≤ runLen c cs then some (1 + runLen c cs) else none

/-- Match of the literal `@username` at the current position. -/
def replyStep (l : List Char) : Option Nat :=
  if repLit.isPrefixOf l then some repLit.length else none

/-- `len(re.findall(<emoticon regex>, tweet))` (`app.py` line 59). -/
def countEmoticons (t : List Char) : Nat := countAll emoStep t

/-- `len(re.findall(r'(\w)\1{3,}', tweet))` (`app.py` line 67). -/
def countRepetitions (t : List Char) : Nat := countAll repeatStep t

/-- `len(re.findall(r'@username', tweet))` (`app.py` line 75). -/
def countReplies (t : List Char) : Nat := countAll replyStep t

/-- `len(re.findall(r'#(\w+)', tweet))` (`app.py` line 83). -/
def countHashtags (t : List Char) : Nat := countAll hashStep t

/-- `len(re.findall(r'!+', tweet))` (`app.py` line 91). -/
def countExclamations (t : List Char) : Nat := countAll exclStep t

/-- `len(tweet)` (`app.py` line 99). -/
def tweetLen (t : List Char) : Nat := t.length

/-- `sum of per-post counts / number of posts`, the average every
`count_avg_*` method computes. -/
def avgOf (f : List Char → Nat) (tl : List (List Char)) : ℚ :=
  ((tl.map f).sum : ℚ) / (tl.length : ℚ)

/-- Number of positions at which the pattern occurs in the text (occurrences
at every offset, the plain reading of "number of occurrences of the literal").
This is the spec-side characterization compared with the scanning
`countReplies`. -/
def occCount (pat : List Char) : List Char → Nat
  | [] => 0
  | c :: cs => (if pat.isPrefixOf (c :: cs) then 1 else 0) + occCount pat cs

/-- The `Dataset` object of `app.py` lines 12-25: the raw timeline plus the
six feature slots, all initialized to `None`. -/
structure Dataset where
  timeline : Option (List (List Char))
  avg_emoticon_counts : Option ℚ
  avg_hashtag_counts : Option ℚ
  avg_exclamation_counts : Option ℚ
  avg_reply_counts : Option ℚ
  avg_repetition_counts : Option ℚ
  avg_tweet_len : Option ℚ
  processed_timeline : Option (List Char)

/-- `Dataset.__init__` (`app.py` lines 13-25): the timeline starts as the
empty list and receives the `text` field of every entry of `timeline_list`
(entries are modelled by their text), so it is a list — never `None` — after
construction. -/
def Dataset.init (timeline_list : Option (List (List Char))) : Dataset :=
  { timeline := some (timeline_list.getD [])
    avg_emoticon_counts := none
    avg_hashtag_counts := none
    avg_exclamation_counts := none
    avg_reply_counts := none
    avg_repetition_counts := none
    avg_tweet_len := none
    processed_timeline := none }

/-- `Dataset.count_avg_emoticons` (`app.py` lines 55-60): `None` timeline
gives `None`; otherwise `count/len(timeline)`, which raises
`ZeroDivisionError` when the timeline is empty. -/
def Dataset.count_avg_emoticons (d : Dataset) : Except PyError (Option ℚ) :=
  match d.timeline with
  | none => .ok none
  | some tl =>
    if tl.length = 0 then .error .zeroDivisionError else .ok (some (avgOf countEmoticons tl))

/-- `Dataset.count_avg_repetitions` (`app.py` lines 63-68). -/
def Dataset.count_avg_repetitions (d : Dataset) : Except PyError (Option ℚ) :=
  match d.timeline with
  | none => .ok none
  | some tl =>
    if tl.length = 0 then .error .zeroDivisionError else .ok (some (avgOf countRepetitions tl))

/-- `Dataset.count_avg_replies` (`app.py` lines 71-76). -/
def Dataset.count_avg_replies (d : Dataset) : Except PyError (Option ℚ) :=
  match d.timeline with
  | none => .ok none
  | some tl =>
    if tl.length = 0 then .error .zeroDivisionError else .ok (some (avgOf countReplies tl))

/-- `Dataset.count_avg_hashtags` (`app.py` lines 79-84). -/
def Dataset.count_avg_hashtags (d : Dataset) : Except PyError (Option ℚ) :=
  match d.timeline with
  | none => .ok none
  | some tl =>
    if tl.length = 0 then .error .zeroDivisionError else .ok (some (avgOf countHashtags tl))

/-- `Dataset.count_avg_exclamations` (`app.py` lines 87-92). -/
def Dataset.count_avg_exclamations (d : Dataset) : Except PyError (Option ℚ) :=
  match d.timeline with
  | none => .ok none
  | some tl =>
    if tl.length = 0 then .error .zeroDivisionError else .ok (some (avgOf countExclamations tl))

/-- `Dataset.count_avg_tweet_len` (`app.py` lines 95-100). -/
def Dataset.count_avg_tweet_len (d : Dataset) : Except PyError (Option ℚ) :=
  match d.timeline with
  | none => .ok none
  | some tl =>
    if tl.length = 0 then .error .zeroDivisionError else .ok (some (avgOf tweetLen tl))

/-- `Dataset.generate_features` (`app.py` lines 102-117): compute the six
averages in the source's order and store them in the feature slots. -/
def Dataset.generate_features (d : Dataset) : Except PyError Dataset :=
  match d.count_avg_emoticons with
  | .error e => .error e
  | .ok e =>
    match d.count_avg_hashtags with
    | .error err => .error err
    | .ok h =>
      match d.count_avg_exclamations with
      | .error err => .error err
      | .ok x =>
        match d.count_avg_replies with
        | .error err => .error err
        | .ok r =>
          match d.count_avg_repetitions with
          | .error err => .error err
          | .ok p =>
            match d.count_avg_tweet_len with
            | .error err => .error err
            | .ok n =>
              .ok { d with
                avg_emoticon_counts := e
                avg_hashtag_counts := h
                avg_exclamation_counts := x
                avg_reply_counts := r
                avg_repetition_counts := p
                avg_tweet_len := n }

/-- `list(map(self.process_tweet, self.timeline))` (`app.py` line 31):
normalize the tweets left to right, propagating the first failure. -/
def processEach (corpus : String → Option (List (List Char))) (language : String) :
    List (List Char) → Except PyError (List (List Char))
  | [] => .ok []
  | t :: ts =>
    match process_tweet corpus language t with
    | .error e => .error e
    | .ok p =>
      match processEach corpus language ts with
      | .error e => .error e
      | .ok ps => .ok (p :: ps)

/-- `Dataset.process` (`app.py` lines 27-33): join the normalized tweets into
one document and return it together with the six feature slots, in the
source's order. -/
def Dataset.process (corpus : String → Option (List (List Char))) (language : String)
    (d : Dataset) : Except PyError (List (List Char) × List (Option ℚ)) :=
  match d.timeline with
  | none => .error .typeError
  | some tl =>
    match processEach corpus language tl with
    | .error e => .error e
    | .ok ps =>
      .ok ([joinSp ps],
        [d.avg_emoticon_counts, d.avg_hashtag_counts, d.avg_exclamation_counts,
         d.avg_reply_counts, d.avg_repetition_counts, d.avg_tweet_len])

/-- A pre-fitted vectorizer, consumed abstractly through `transform` followed
by `toarray`: one numeric row per input document. -/
structure Vectorizer where
  transform : List (List Char) → List (List ℚ)

/-- A pre-fitted regression model, consumed abstractly through `predict`:
one numeric output per input row. -/
structure Model where
  predict : List (List ℚ) → List ℚ

/-- The `Predictor` object (`app.py` lines 120-134).  Artifact loading from
disk is abstracted: the dictionaries hold whatever artifacts were present as
association lists keyed by trait name, in which a configured trait may be
absent. -/
structure Predictor where
  personalities : List String
  timeline : List (List Char)
  features : List ℚ
  vectorizers : List (String × Vectorizer)
  models : List (String × Model)

/-- Python dictionary read access `d[k]`: the value when the key is present. -/
def dictGet {β : Type} (k : String) : List (String × β) → Option β
  | [] => none
  | (k', v) :: rest => if k = k' then some v else dictGet k rest

/-- `Predictor.load_input` (`app.py` lines 136-142): `self.vectorizers[trait]`
raises `KeyError` for an absent trait; otherwise the text row is column-stacked
with the feature vector (features appended as trailing columns). -/
def Predictor.load_input (p : Predictor) (trait : String) : Except PyError (List (List ℚ)) :=
  match dictGet trait p.vectorizers with
  | none => .error (.keyError trait)
  | some v => .ok (List.zipWith (· ++ ·) (v.transform p.timeline) [p.features])

/-- Rounding half to even of a rational, the behavior of Python's `round` on
the model's numeric output. -/
def roundHalfEven (q : ℚ) : ℤ :=
  if q - Int.floor q < 1 / 2 then Int.floor q
  else if 1 / 2 < q - Int.floor q then Int.floor q + 1
  else if 2 ∣ Int.floor q then Int.floor q else Int.floor q + 1

/-- `round(x, 2)`: round to 2 decimal places. -/
def round2 (q : ℚ) : ℚ := ((roundHalfEven (q * 100) : ℤ) : ℚ) / 100

/-- The loop body sequence of `Predictor.estimate_traits` (`app.py` lines
144-152) over a list of traits: build the input (vectorizer lookup may raise
`KeyError`), look the model up (may raise `KeyError`), take the first output
of `predict` (may raise `IndexError` if the model yields none), round it to 2
decimals, and record the score under the trait; any error aborts the whole
call. -/
def estimateGo (p : Predictor) : List String → Except PyError (List (String × ℚ))
  | [] => .ok []
  | t :: ts =>
    match p.load_input t with
    | .error e => .error e
    | .ok iv =>
      match dictGet t p.models with
      | none => .error (.keyError t)
      | some m =>
        match (m.predict iv).head? with
        | none => .error .indexError
        | some y =>
          match estimateGo p ts with
          | .error e => .error e
          | .ok rest => .ok ((t, round2 y) :: rest)

/-- `Predictor.estimate_traits` (`app.py` lines 144-152): iterate over the
configured personalities in order, producing the trait → score mapping. -/
def Predictor.estimate_traits (p : Predictor) : Except PyError (List (String × ℚ)) :=
  estimateGo p p.personalities

/-- The score `estimate_traits` would record for one trait, when everything
it needs is present: the first output of the trait's model on the
vectorized-text row extended with the features, rounded to 2 decimals. -/
def traitScore? (p : Predictor) (t : String) : Option ℚ :=
  match dictGet t p.vectorizers, dictGet t p.models with
  | some v, some m =>
    ((m.predict (List.zipWith (· ++ ·) (v.transform p.timeline) [p.features])).head?).map round2
  | _, _ => none

/-- Scanner for runs of 4 or more identical characters: `true` iff the string
contains one. -/
def hasFourRun : List Char → Bool
  | a :: b :: c :: d :: rest => (a == b && b == c && c == d) || hasFourRun (b :: c :: d :: rest)
  | _ => false

/-- Two strings that agree except on the lengths of aligned nonempty newline
runs.  The outputs of the spec's step 3 and the code's step 3 are related this
way, and the later pipeline steps cannot distinguish them. -/
inductive NLE : List Char → List Char → Prop where
  | nil : NLE [] []
  | cons (c : Char) (h : c ≠ '\n') {s t : List Char} : NLE s t → NLE (c :: s) (c :: t)
  | nl (m n : Nat) (hm : 0 < m) (hn : 0 < n) {s t : List Char} :
      NLE s t → NLE (List.replicate m '\n' ++ s) (List.replicate n '\n' ++ t)

/-- Modelled from the spec: the external, static English stopword set (the
NLTK stopwords corpus for `english`, an external resource not part of
`src/`); "an external, static, loaded-once set of common words".  Entries
containing an apostrophe are omitted: tokens reaching the stopword filter
consist of ASCII letters only, so such entries can never match and omitting
them does not change `normalizeCore`. -/
def englishStopwords : List (List Char) :=
  (["i", "me", "my", "myself", "we", "our", "ours", "ourselves", "you", "your",
    "yours", "yourself", "yourselves", "he", "him", "his", "himself", "she",
    "her", "hers", "herself", "it", "its", "itself", "they", "them", "their",
    "theirs", "themselves", "what", "which", "who", "whom", "this", "that",
    "these", "those", "am", "is", "are", "was", "were", "be", "been", "being",
    "have", "has", "had", "having", "do", "does", "did", "doing", "a", "an",
    "the", "and", "but", "if", "or", "because", "as", "until", "while", "of",
    "at", "by", "for", "with", "about", "against", "between", "into",
    "through", "during", "before", "after", "above", "below", "to", "from",
    "up", "down", "in", "out", "on", "off", "over", "under", "again",
    "further", "then", "once", "here", "there", "when", "where", "why", "how",
    "all", "any", "both", "each", "few", "more", "most", "other", "some",
    "such", "no", "nor", "not", "only", "own", "same", "so", "than", "too",
    "very", "s", "t", "can", "will", "just", "don", "should", "now", "d",
    "ll", "m", "o", "re", "ve", "y", "ain", "aren", "couldn", "didn",
    "doesn", "hadn", "hasn", "haven", "isn", "ma", "mightn", "mustn",
    "needn", "shan", "shouldn", "wasn", "weren", "won", "wouldn"]).map
    String.toList

/-- A corpus in which only `english` has a stopword set, the English one. -/
def engCorpus : String → Option (List (List Char)) :=
  fun language => if language = "english" then some englishStopwords else none

/-- A corpus with no stopword set for any language. -/
def noCorpus : String → Option (List (List Char)) := fun _ => none

/-- The two-post batch of the spec's section 8 example. -/
def c6batch : List (List Char) :=
  ["I love this!!! :) #great".toList, "meh".toList]

/-- A concrete deterministic vectorizer used to instantiate theorems about the
predictor: every document list becomes the single row `[2]`. -/
def wVec : Vectorizer := { transform := fun _ => [[(2 : ℚ)]] }

/-- A concrete deterministic model used to instantiate theorems about the
predictor: every input yields the single output `1/3`. -/
def wModel : Model := { predict := fun _ => [(1 : ℚ) / 3] }

/-- A fully loaded predictor over two traits. -/
def wPred : Predictor :=
  { personalities := ["extroverted", "stable"]
    timeline := [['d', 'o', 'c']]
    features := [0, 0, 0, 0, 0, 0]
    vectorizers := [("extroverted", wVec), ("stable", wVec)]
    models := [("extroverted", wModel), ("stable", wModel)] }

/-- A predictor configured for one trait whose artifacts failed to load. -/
def wBad : Predictor :=
  { personalities := ["open"]
    timeline := [['d', 'o', 'c']]
    features := [0, 0, 0, 0, 0, 0]
    vectorizers := []
    models := [] }

/-! ### List helpers -/

lemma length_drop_le (n : Nat) (l : List Char) : (l.drop n).length ≤ l.length := by
  rw [List.length_drop]
  omega

lemma length_dropWhile_le (p : Char → Bool) (l : List Char) :
    (l.dropWhile p).length ≤ l.length := by
  induction l with
  | nil => simp [List.dropWhile]
  | cons c cs ih =>
    by_cases h : p c
    · simpa [List.dropWhile, h] using Nat.le_succ_of_le ih
    · simp [List.dropWhile, h]

lemma takeWhile_append_of_all {p : Char → Bool} {a : List Char} (x : Char) (r : List Char)
    (ha : ∀ c ∈ a, p c = true) (hx : p x = false) :
    (a ++ x :: r).takeWhile p = a ∧ (a ++ x :: r).dropWhile p = x :: r := by
  induction a with
  | nil => simp [List.takeWhile, List.dropWhile, hx]
  | cons c a ih =>
    have hc : p c = true := ha c (by simp)
    have := ih (fun d hd => ha d (by simp [hd]))
    simp [List.takeWhile, List.dropWhile, hc, this.1, this.2]

lemma mem_of_isPrefixOf {p l : List Char} (h : p.isPrefixOf l = true) : ∀ c ∈ p, c ∈ l := by
  induction p generalizing l with
  | nil => simp
  | cons a p ih =>
    cases l with
    | nil => simp [List.isPrefixOf] at h
    | cons b l =>
      simp only [List.isPrefixOf, Bool.and_eq_true, beq_iff_eq] at h
      rcases h with ⟨rfl, h⟩
      intro c hc
      rcases hc with _ | hc
      · simp
      · exact List.mem_cons_of_mem _ (ih h c (by assumption))

lemma eq_append_of_isPrefixOf {p l : List Char} (h : p.isPrefixOf l = true) :
    l = p ++ l.drop p.length := by
  induction p generalizing l with
  | nil => simp
  | cons a p ih =>
    cases l with
    | nil => simp [List.isPrefixOf] at h
    | cons b l =>
      simp only [List.isPrefixOf, Bool.and_eq_true, beq_iff_eq] at h
      rcases h with ⟨rfl, h⟩
      simpa using ih h

/-! ### Fuel elimination and equation lemmas for the scanners -/

lemma scanSub_fuel (step : List Char → Option (List Char × Nat)) :
    ∀ (f g : Nat) (l : List Char), l.length ≤ f → l.length ≤ g →
      scanSub step f l = scanSub step g l := by
  intro f
  induction f with
  | zero =>
    intro g l hf _
    have : l = [] := by cases l <;> simp_all
    subst this
    cases g <;> rfl
  | succ f ih =>
    intro g l hf hg
    cases l with
    | nil => cases g <;> rfl
    | cons c cs =>
      cases g with
      | zero => simp at hg
      | succ g =>
        simp only [scanSub]
        cases hstep : step (c :: cs) with
        | none =>
          simp only []
          rw [ih g cs (by simpa using hf) (by simpa using hg)]
        | some rk =>
          simp only []
          rw [ih g (cs.drop (rk.2 - 1))
            (le_trans (length_drop_le _ _) (by simpa using hf))
            (le_trans (length_drop_le _ _) (by simpa using hg))]

lemma subAll_nil (step : List Char → Option (List Char × Nat)) : subAll step [] = [] := rfl

lemma subAll_cons_none {step : List Char → Option (List Char × Nat)} {c : Char} {cs : List Char}
    (h : step (c :: cs) = none) : subAll step (c :: cs) = c :: subAll step cs := by
  simp only [subAll, List.length_cons, scanSub, h]

lemma subAll_cons_some {step : List Char → Option (List Char × Nat)} {c : Char} {cs : List Char}
    {r : List Char} {k : Nat} (h : step (c :: cs) = some (r, k)) :
    subAll step (c :: cs) = r ++ subAll step (cs.drop (k - 1)) := by
  simp only [subAll, List.length_cons, scanSub, h]
  congr 1
  exact scanSub_fuel step cs.length (cs.drop (k - 1)).length (cs.drop (k - 1))
    (length_drop_le _ _) le_rfl

lemma scanCount_fuel (step : List Char → Option Nat) :
    ∀ (f g : Nat) (l : List Char), l.length ≤ f → l.length ≤ g →
      scanCount step f l = scanCount step g l := by
  intro f
  induction f with
  | zero =>
    intro g l hf _
    have : l = [] := by cases l <;> simp_all
    subst this
    cases g <;> rfl
  | succ f ih =>
    intro g l hf hg
    cases l with
    | nil => cases g <;> rfl
    | cons c cs =>
      cases g with
      | zero => simp at hg
      | succ g =>
        simp only [scanCount]
        cases hstep : step (c :: cs) with
        | none =>
          simp only []
          rw [ih g cs (by simpa using hf) (by simpa using hg)]
        | some k =>
          simp only []
          rw [ih g (cs.drop (k - 1))
            (le_trans (length_drop_le _ _) (by simpa using hf))
            (le_trans (length_drop_le _ _) (by simpa using hg))]

lemma countAll_nil (step : List Char → Option Nat) : countAll step [] = 0 := rfl

lemma countAll_cons_none {step : List Char → Option Nat} {c : Char} {cs : List Char}
    (h : step (c :: cs) = none) : countAll step (c :: cs) = countAll step cs := by
  simp only [countAll, List.length_cons, scanCount, h]

lemma countAll_cons_some {step : List Char → Option Nat} {c : Char} {cs : List Char}
    {k : Nat} (h : step (c :: cs) = some k) :
    countAll step (c :: cs) = 1 + countAll step (cs.drop (k - 1)) := by
  simp only [countAll, List.length_cons, scanCount, h]
  congr 1
  exact scanCount_fuel step cs.length (cs.drop (k - 1)).length (cs.drop (k - 1))
    (length_drop_le _ _) le_rfl

lemma splitWsGo_fuel :
    ∀ (f g : Nat) (l : List Char), l.length ≤ f → l.length ≤ g →
      splitWsGo f l = splitWsGo g l := by
  intro f
  induction f with
  | zero =>
    intro g l hf _
    have : l = [] := by cases l <;> simp_all
    subst this
    cases g <;> rfl
  | succ f ih =>
    intro g l hf hg
    cases l with
    | nil => cases g <;> rfl
    | cons c cs =>
      cases g with
      | zero => simp at hg
      | succ g =>
        simp only [splitWsGo]
        by_cases h : isSpace c
        · rw [if_pos h, if_pos h, ih g cs (by simpa using hf) (by simpa using hg)]
        · rw [if_neg h, if_neg h, ih g (cs.dropWhile (fun d => !isSpace d))
            (le_trans (length_dropWhile_le _ _) (by simpa using hf))
            (le_trans (length_dropWhile_le _ _) (by simpa using hg))]

lemma splitWs_nil : splitWs [] = [] := rfl

lemma splitWs_cons_space {c : Char} {cs : List Char} (h : isSpace c = true) :
    splitWs (c :: cs) = splitWs cs := by
  simp only [splitWs, List.length_cons, splitWsGo, h, if_true]

lemma splitWs_cons_word {c : Char} {cs : List Char} (h : isSpace c = false) :
    splitWs (c :: cs) =
      (c :: cs.takeWhile (fun d => !isSpace d)) :: splitWs (cs.dropWhile (fun d => !isSpace d)) := by
  simp only [splitWs, List.length_cons, splitWsGo, h]
  rw [splitWsGo_fuel cs.length (cs.dropWhile (fun d => !isSpace d)).length _
    (length_dropWhile_le _ _) le_rfl]
  simp

lemma tokensGo_fuel :
    ∀ (f g : Nat) (l : List Char), l.length ≤ f → l.length ≤ g →
      tokensGo f l = tokensGo g l := by
  intro f
  induction f with
  | zero =>
    intro g l hf _
    have : l = [] := by cases l <;> simp_all
    subst this
    cases g <;> rfl
  | succ f ih =>
    intro g l hf hg
    cases l with
    | nil => cases g <;> rfl
    | cons c cs =>
      cases g with
      | zero => simp at hg
      | succ g =>
        simp only [tokensGo]
        by_cases h : isAsciiLetter c
        · rw [if_pos h, if_pos h, ih g (cs.dropWhile isAsciiLetter)
            (le_trans (length_dropWhile_le _ _) (by simpa using hf))
            (le_trans (length_dropWhile_le _ _) (by simpa using hg))]
        · rw [if_neg h, if_neg h, ih g cs (by simpa using hf) (by simpa using hg)]

lemma tokens_nil : tokens [] = [] := rfl

lemma tokens_cons_letter {c : Char} {cs : List Char} (h : isAsciiLetter c = true) :
    tokens (c :: cs) =
      (lowerChar c :: (cs.takeWhile isAsciiLetter).map lowerChar) ::
        tokens (cs.dropWhile isAsciiLetter) := by
  simp only [tokens, List.length_cons, tokensGo, h]
  rw [tokensGo_fuel cs.length (cs.dropWhile isAsciiLetter).length _
    (length_dropWhile_le _ _) le_rfl]
  simp

lemma tokens_cons_not {c : Char} {cs : List Char} (h : isAsciiLetter c = false) :
    tokens (c :: cs) = tokens cs := by
  simp only [tokens, List.length_cons, tokensGo, h, Bool.false_eq_true, if_false]

/-! ### Character-level facts -/

lemma toNat_ofNat_valid {n : Nat} (h : n.isValidChar) : (Char.ofNat n).toNat = n := by
  simp [Char.ofNat, h, Char.ofNatAux, Char.toNat, UInt32.toNat, BitVec.toNat_ofNatLt]

lemma lowerChar_toNat_of_upper {c : Char} (h1 : 65 ≤ c.toNat) (h2 : c.toNat ≤ 90) :
    (lowerChar c).toNat = c.toNat + 32 := by
  have hc : (65 ≤ c.toNat && c.toNat ≤ 90) = true := by simp [h1, h2]
  have hv : (c.toNat + 32).isValidChar := Or.inl (by omega)
  simp only [lowerChar, hc, if_true]
  exact toNat_ofNat_valid hv

lemma lowerChar_eq_self_of_not_upper {c : Char} (h : ¬ (65 ≤ c.toNat ∧ c.toNat ≤ 90)) :
    lowerChar c = c := by
  have hc : (65 ≤ c.toNat && c.toNat ≤ 90) = false := by
    simp only [Bool.and_eq_false_iff, decide_eq_false_iff_not]
    omega
  simp only [lowerChar, hc, Bool.false_eq_true, if_false]

lemma isLowerAlpha_lowerChar {c : Char} (h : isAsciiLetter c = true) :
    isLowerAlpha (lowerChar c) = true := by
  simp only [isAsciiLetter, Bool.or_eq_true, Bool.and_eq_true, decide_eq_true_eq] at h
  rcases h with h | h
  · have := lowerChar_toNat_of_upper h.1 h.2
    simp only [isLowerAlpha, Bool.and_eq_true, decide_eq_true_eq, this]
    omega
  · rw [lowerChar_eq_self_of_not_upper (by omega)]
    simp only [isLowerAlpha, Bool.and_eq_true, decide_eq_true_eq]
    omega

lemma lowerChar_eq_self_of_lower {c : Char} (h : isLowerAlpha c = true) : lowerChar c = c := by
  simp only [isLowerAlpha, Bool.and_eq_true, decide_eq_true_eq] at h
  exact lowerChar_eq_self_of_not_upper (by omega)

lemma not_isSpace_of_lower {c : Char} (h : isLowerAlpha c = true) : isSpace c = false := by
  simp only [isLowerAlpha, Bool.and_eq_true, decide_eq_true_eq] at h
  simp only [isSpace, Bool.or_eq_false_iff, decide_eq_false_iff_not]
  omega

lemma isAsciiLetter_of_lower {c : Char} (h : isLowerAlpha c = true) : isAsciiLetter c = true := by
  simp only [isLowerAlpha, Bool.and_eq_true, decide_eq_true_eq] at h
  simp only [isAsciiLetter, Bool.or_eq_true, Bool.and_eq_true, decide_eq_true_eq]
  omega

lemma not_isSpace_lowerChar {c : Char} (h : isAsciiLetter c = true) :
    isSpace (lowerChar c) = false :=
  not_isSpace_of_lower (isLowerAlpha_lowerChar h)

lemma spaceify_letter {c : Char} (h : isAsciiLetter c = true) : spaceify c = lowerChar c := by
  simp [spaceify, h]

lemma spaceify_not {c : Char} (h : isAsciiLetter c = false) : spaceify c = ' ' := by
  simp [spaceify, h]

lemma isSpace_spaceify (c : Char) : isSpace (spaceify c) = !isAsciiLetter c := by
  by_cases h : isAsciiLetter c
  · rw [spaceify_letter h, not_isSpace_lowerChar h, h]
    rfl
  · rw [spaceify_not (by simpa using h)]
    simp only [Bool.not_eq_true] at h
    rw [h]
    rfl

lemma not_lower_of_not_letter {c : Char} (h : isAsciiLetter c = false) :
    isLowerAlpha c = false := by
  cases hl : isLowerAlpha c
  · rfl
  · rw [isAsciiLetter_of_lower hl] at h
    exact absurd h (by simp)

/-! ### The split-lower-letters pipeline computes `tokens` -/

lemma lowerStr_lettersOnly (l : List Char) : lowerStr (lettersOnly l) = l.map spaceify := by
  simp only [lowerStr, lettersOnly, List.map_map]
  apply List.map_congr_left
  intro c _
  by_cases h : isAsciiLetter c
  · simp [Function.comp, h, spaceify_letter h]
  · have h' : isAsciiLetter c = false := by simpa using h
    simp only [Function.comp_apply, h', Bool.false_eq_true, if_false, spaceify_not h']
    rfl

lemma takeWhile_spaceify (cs : List Char) :
    (cs.map spaceify).takeWhile (fun d => !isSpace d) = (cs.takeWhile isAsciiLetter).map lowerChar := by
  rw [List.takeWhile_map]
  have hp : ((fun d => !isSpace d) ∘ spaceify) = isAsciiLetter := by
    funext c
    simp [Function.comp, isSpace_spaceify]
  rw [hp]
  apply List.map_congr_left
  intro c hc
  exact spaceify_letter (List.mem_takeWhile_imp hc)

lemma dropWhile_spaceify (cs : List Char) :
    (cs.map spaceify).dropWhile (fun d => !isSpace d) = (cs.dropWhile isAsciiLetter).map spaceify := by
  rw [List.dropWhile_map]
  have hp : ((fun d => !isSpace d) ∘ spaceify) = isAsciiLetter := by
    funext c
    simp [Function.comp, isSpace_spaceify]
  rw [hp]

lemma splitWs_map_spaceify_bounded :
    ∀ (n : Nat) (l : List Char), l.length ≤ n → splitWs (l.map spaceify) = tokens l := by
  intro n
  induction n with
  | zero =>
    intro l hl
    have : l = [] := by cases l <;> simp_all
    subst this
    rfl
  | succ n ih =>
    intro l hl
    cases l with
    | nil => rfl
    | cons c cs =>
      by_cases h : isAsciiLetter c
      · rw [List.map_cons, spaceify_letter h, splitWs_cons_word (not_isSpace_lowerChar h),
          takeWhile_spaceify, dropWhile_spaceify, tokens_cons_letter h]
        congr 1
        exact ih _ (le_trans (length_dropWhile_le _ _) (by simpa using hl))
      · have h' : isAsciiLetter c = false := by simpa using h
        rw [List.map_cons, spaceify_not h', splitWs_cons_space (by rfl), tokens_cons_not h']
        exact ih _ (by simpa using hl)

/-- The code's `split() ∘ lower ∘ letters-only` pipeline computes exactly the
lower-cased maximal letter runs of its input. -/
lemma splitWs_lower_letters (l : List Char) :
    splitWs (lowerStr (lettersOnly l)) = tokens l := by
  rw [lowerStr_lettersOnly]
  exact splitWs_map_spaceify_bounded l.length l le_rfl

/-! ### Runs -/

lemma runLen_decomp (c : Char) (cs : List Char) :
    cs = List.replicate (runLen c cs) c ++ cs.drop (runLen c cs) := by
  induction cs with
  | nil => rfl
  | cons d ds ih =>
    by_cases h : d = c
    · subst h
      simp only [runLen, if_pos rfl, List.replicate_succ, List.cons_append, List.drop_succ_cons]
      exact congrArg (d :: ·) ih
    · simp [runLen, h]

lemma head?_drop_runLen (c : Char) (cs : List Char) :
    (cs.drop (runLen c cs)).head? ≠ some c := by
  induction cs with
  | nil => simp
  | cons d ds ih =>
    by_cases h : d = c
    · subst h
      simpa [runLen] using ih
    · simp [runLen, h, List.head?]

lemma runLen_head_eq {c : Char} {cs : List Char} (d : Char) (h : d = c) (rest : List Char)
    (hc : cs = d :: rest) : runLen c cs = runLen c rest + 1 := by
  subst hc
  simp [runLen, h]

/-! ### Equation lemmas for the collapse rewrites -/

lemma collapseCode_nil : collapseCode [] = [] := rfl

lemma collapseSpec_nil : collapseSpec [] = [] := rfl

lemma collapseCode_cons_big {c : Char} {cs : List Char} (h1 : c ≠ '\n')
    (h2 : 3 ≤ runLen c cs) :
    collapseCode (c :: cs) = c :: c :: c :: collapseCode (cs.drop (runLen c cs)) := by
  have hstep : collapseCodeStep (c :: cs) = some ([c, c, c], 1 + runLen c cs) := by
    simp [collapseCodeStep, h1, h2]
  rw [collapseCode, subAll_cons_some hstep]
  simp [collapseCode]

lemma collapseCode_cons_small {c : Char} {cs : List Char}
    (h : ¬(c ≠ '\n' ∧ 3 ≤ runLen c cs)) :
    collapseCode (c :: cs) = c :: collapseCode cs := by
  have hstep : collapseCodeStep (c :: cs) = none := by
    simp only [collapseCodeStep, if_neg h]
  rw [collapseCode, subAll_cons_none hstep]
  rfl

lemma collapseSpec_cons_big {c : Char} {cs : List Char} (h2 : 3 ≤ runLen c cs) :
    collapseSpec (c :: cs) = c :: c :: c :: collapseSpec (cs.drop (runLen c cs)) := by
  have hstep : collapseSpecStep (c :: cs) = some ([c, c, c], 1 + runLen c cs) := by
    simp [collapseSpecStep, h2]
  rw [collapseSpec, subAll_cons_some hstep]
  simp [collapseSpec]

lemma collapseSpec_cons_small {c : Char} {cs : List Char} (h : ¬ 3 ≤ runLen c cs) :
    collapseSpec (c :: cs) = c :: collapseSpec cs := by
  have hstep : collapseSpecStep (c :: cs) = none := by
    simp only [collapseSpecStep, if_neg h]
  rw [collapseSpec, subAll_cons_none hstep]
  rfl

lemma collapseCode_nl_append (k : Nat) (r : List Char) :
    collapseCode (List.replicate k '\n' ++ r) = List.replicate k '\n' ++ collapseCode r := by
  induction k with
  | zero => simp
  | succ k ih =>
    rw [List.replicate_succ, List.cons_append, collapseCode_cons_small (by simp), ih]
    simp

/-! ### The spec's step 3 and the code's step 3 yield NLE-related strings -/

lemma NLE_nl3 {s t : List Char} (k : Nat) (h : NLE s t) :
    NLE ('\n' :: '\n' :: '\n' :: s) ('\n' :: (List.replicate k '\n' ++ t)) := by
  have hthis := NLE.nl 3 (k + 1) (by omega) (by omega) h
  have h3 : List.replicate 3 '\n' = ['\n', '\n', '\n'] := by decide
  have hk : List.replicate (k + 1) '\n' ++ t = '\n' :: (List.replicate k '\n' ++ t) := by
    simp [List.replicate_succ]
  rw [h3, hk] at hthis
  simpa using hthis

lemma NLE_nl1 {s t : List Char} (h : NLE s t) : NLE ('\n' :: s) ('\n' :: t) := by
  have hthis := NLE.nl 1 1 one_pos one_pos h
  simpa using hthis

lemma NLE_collapse_bounded :
    ∀ (n : Nat) (l : List Char), l.length ≤ n → NLE (collapseSpec l) (collapseCode l) := by
  intro n
  induction n with
  | zero =>
    intro l hl
    have : l = [] := by cases l <;> simp_all
    subst this
    exact NLE.nil
  | succ n ih =>
    intro l hl
    cases l with
    | nil => exact NLE.nil
    | cons c cs =>
      have hdrop : (cs.drop (runLen c cs)).length ≤ n :=
        le_trans (length_drop_le _ _) (by simpa using hl)
      have hcs : cs.length ≤ n := by simpa using hl
      by_cases hc : c = '\n'
      · subst hc
        by_cases h3 : 3 ≤ runLen '\n' cs
        · rw [collapseSpec_cons_big h3, collapseCode_cons_small (by simp)]
          have hcode : collapseCode cs =
              List.replicate (runLen '\n' cs) '\n' ++ collapseCode (cs.drop (runLen '\n' cs)) := by
            conv_lhs => rw [runLen_decomp '\n' cs]
            exact collapseCode_nl_append _ _
          rw [hcode]
          exact NLE_nl3 _ (ih _ hdrop)
        · rw [collapseSpec_cons_small h3, collapseCode_cons_small (by simp)]
          exact NLE_nl1 (ih cs hcs)
      · by_cases h3 : 3 ≤ runLen c cs
        · rw [collapseSpec_cons_big h3, collapseCode_cons_big hc h3]
          exact NLE.cons c hc (NLE.cons c hc (NLE.cons c hc (ih _ hdrop)))
        · rw [collapseSpec_cons_small h3, collapseCode_cons_small (by tauto)]
          exact NLE.cons c hc (ih cs hcs)

lemma NLE_collapse (l : List Char) : NLE (collapseSpec l) (collapseCode l) :=
  NLE_collapse_bounded l.length l le_rfl

/-! ### `tokens` is invariant under NLE -/

lemma NLE_takeWhile {s t : List Char} (h : NLE s t) :
    s.takeWhile isAsciiLetter = t.takeWhile isAsciiLetter := by
  induction h with
  | nil => rfl
  | cons c hne h ih =>
    by_cases hc : isAsciiLetter c
    · simp [List.takeWhile_cons, hc, ih]
    · simp [List.takeWhile_cons, hc]
  | nl m n hm hn h ih =>
    cases m with
    | zero => omega
    | succ m =>
      cases n with
      | zero => omega
      | succ n =>
        have : isAsciiLetter '\n' = false := rfl
        simp [List.replicate_succ, List.takeWhile_cons, this]

lemma NLE_dropWhile {s t : List Char} (h : NLE s t) :
    NLE (s.dropWhile isAsciiLetter) (t.dropWhile isAsciiLetter) := by
  induction h with
  | nil => exact NLE.nil
  | cons c hne h ih =>
    by_cases hc : isAsciiLetter c
    · simpa [List.dropWhile_cons, hc] using ih
    · simpa [List.dropWhile_cons, hc] using NLE.cons c hne h
  | nl m n hm hn h ih =>
    cases m with
    | zero => omega
    | succ m =>
      cases n with
      | zero => omega
      | succ n =>
        have hnl : isAsciiLetter '\n' = false := rfl
        simpa [List.replicate_succ, List.dropWhile_cons, hnl] using
          NLE.nl (m + 1) (n + 1) (by omega) (by omega) h

lemma tokens_replicate_nl (k : Nat) (s : List Char) :
    tokens (List.replicate k '\n' ++ s) = tokens s := by
  induction k with
  | zero => simp
  | succ k ih =>
    rw [List.replicate_succ, List.cons_append, tokens_cons_not (by decide), ih]

lemma NLE_nil_of_nil : ∀ {s t : List Char}, NLE s t → s = [] → t = [] := by
  intro s t h
  induction h with
  | nil => intro; rfl
  | cons c hne h ih =>
    intro hc
    simp at hc
  | nl m n hm hn h ih =>
    intro hc
    exfalso
    cases m with
    | zero => omega
    | succ m => simp [List.replicate_succ] at hc

lemma tokens_NLE_bounded :
    ∀ (n : Nat) (s t : List Char), s.length ≤ n → NLE s t → tokens s = tokens t := by
  intro n
  induction n with
  | zero =>
    intro s t hs h
    have hnil : s = [] := by cases s <;> simp_all
    have hnil2 : t = [] := NLE_nil_of_nil h hnil
    rw [hnil, hnil2]
  | succ n ih =>
    intro s t hs h
    cases h with
    | nil => rfl
    | cons c hne h =>
      rename_i s' t'
      by_cases hc : isAsciiLetter c
      · rw [tokens_cons_letter hc, tokens_cons_letter hc, NLE_takeWhile h]
        congr 1
        exact ih _ _ (le_trans (length_dropWhile_le _ _) (by simpa using hs)) (NLE_dropWhile h)
      · have hc' : isAsciiLetter c = false := by simpa using hc
        rw [tokens_cons_not hc', tokens_cons_not hc']
        exact ih _ _ (by simpa using hs) h
    | nl m k hm hk h =>
      rename_i s' t'
      rw [tokens_replicate_nl, tokens_replicate_nl]
      have hlen : s'.length ≤ n := by
        have : m + s'.length ≤ n + 1 := by simpa using hs
        omega
      exact ih _ _ hlen h

lemma tokens_NLE {s t : List Char} (h : NLE s t) : tokens s = tokens t :=
  tokens_NLE_bounded s.length s t le_rfl h

/-! ### The normalization pipeline equals the spec's seven steps -/

lemma normalizeCore_spec_eq (S : List (List Char)) (t : List Char) :
    normalizeSpecCore S t = normalizeCore S t := by
  unfold normalizeSpecCore normalizeCore
  rw [splitWs_lower_letters, splitWs_lower_letters, tokens_NLE (NLE_collapse (repSub (urlSub t)))]

/-! ### Claim C3 -/

/-- C3: for every input string, `process_tweet` performs exactly the spec's
seven rewrites in the spec's order — URL tagging, literal `@username` → `REP`,
collapsing every run of 4 or more identical characters to exactly 3, replacing
every non-ASCII-letter by a space, lower-casing and splitting on whitespace,
dropping the language's stopwords, and joining the survivors with single
spaces. -/
theorem C3_normalize_seven_steps (corpus : String → Option (List (List Char)))
    (language : String) (t : List Char) :
    process_tweet corpus language t = normalizeSpecSeven corpus language t := by
  unfold process_tweet normalizeSpecSeven
  cases stopwordsFor corpus language with
  | error e => rfl
  | ok S => simp [normalizeCore_spec_eq]

/-! ### Claim C9 -/

/-- C9: if the given language has no known stopword set, `process_tweet`
fails with `ConfigurationError` for every input. -/
theorem C9_unknown_language_configuration_error
    (corpus : String → Option (List (List Char))) (language : String) (t : List Char)
    (h : corpus language = none) :
    process_tweet corpus language t = .error .configurationError := by
  simp [process_tweet, stopwordsFor, h]

/-- Witness for C9 at a concrete unknown language. -/
theorem C9_witness :
    noCorpus "klingon" = none ∧
      process_tweet noCorpus "klingon" ['h', 'i'] = .error .configurationError :=
  ⟨rfl, C9_unknown_language_configuration_error noCorpus "klingon" ['h', 'i'] rfl⟩

/-! ### Claim C1 -/

/-- C1 (what the code actually does at the claim's input): on a non-null,
zero-length post list, every one of the six style averages divides by zero —
it raises `ZeroDivisionError`, which is not the spec's `EmptyBatchError`. -/
theorem C1_empty_batch_divides_by_zero :
    (Dataset.init (some [])).count_avg_emoticons = .error .zeroDivisionError ∧
    (Dataset.init (some [])).count_avg_repetitions = .error .zeroDivisionError ∧
    (Dataset.init (some [])).count_avg_replies = .error .zeroDivisionError ∧
    (Dataset.init (some [])).count_avg_hashtags = .error .zeroDivisionError ∧
    (Dataset.init (some [])).count_avg_exclamations = .error .zeroDivisionError ∧
    (Dataset.init (some [])).count_avg_tweet_len = .error .zeroDivisionError ∧
    PyError.zeroDivisionError ≠ PyError.emptyBatchError :=
  ⟨rfl, rfl, rfl, rfl, rfl, rfl, by decide⟩

/-! ### Claim C7, counterexample -/

/-- C7 counterexample: normalization is not idempotent.  On `"aAaA"` with the
English stopword set, one pass yields `"aaaa"` (runs are collapsed before
lower-casing, and lower-casing creates a new run of 4), and a second pass
collapses that to `"aaa"`. -/
theorem C7_counterexample :
    normalizeCore englishStopwords (normalizeCore englishStopwords "aAaA".toList) ≠
      normalizeCore englishStopwords "aAaA".toList := by
  decide

/-! ### Claim C8 -/

lemma occCount_cons_neg {pat : List Char} {x : Char} {xs : List Char}
    (h : pat.isPrefixOf (x :: xs) = false) : occCount pat (x :: xs) = occCount pat xs := by
  simp [occCount, h]

lemma occCount_username_skip (r : List Char) :
    occCount repLit ('u' :: 's' :: 'e' :: 'r' :: 'n' :: 'a' :: 'm' :: 'e' :: r) =
      occCount repLit r := by
  have h1 : repLit.isPrefixOf ('u' :: 's' :: 'e' :: 'r' :: 'n' :: 'a' :: 'm' :: 'e' :: r) = false := rfl
  have h2 : repLit.isPrefixOf ('s' :: 'e' :: 'r' :: 'n' :: 'a' :: 'm' :: 'e' :: r) = false := rfl
  have h3 : repLit.isPrefixOf ('e' :: 'r' :: 'n' :: 'a' :: 'm' :: 'e' :: r) = false := rfl
  have h4 : repLit.isPrefixOf ('r' :: 'n' :: 'a' :: 'm' :: 'e' :: r) = false := rfl
  have h5 : repLit.isPrefixOf ('n' :: 'a' :: 'm' :: 'e' :: r) = false := rfl
  have h6 : repLit.isPrefixOf ('a' :: 'm' :: 'e' :: r) = false := rfl
  have h7 : repLit.isPrefixOf ('m' :: 'e' :: r) = false := rfl
  have h8 : repLit.isPrefixOf ('e' :: r) = false := rfl
  rw [occCount_cons_neg h1, occCount_cons_neg h2, occCount_cons_neg h3, occCount_cons_neg h4,
    occCount_cons_neg h5, occCount_cons_neg h6, occCount_cons_neg h7, occCount_cons_neg h8]

lemma countReplies_eq_occCount_bounded :
    ∀ (n : Nat) (l : List Char), l.length ≤ n → countReplies l = occCount repLit l := by
  intro n
  induction n with
  | zero =>
    intro l hl
    have : l = [] := by cases l <;> simp_all
    subst this
    rfl
  | succ n ih =>
    intro l hl
    cases l with
    | nil => rfl
    | cons c cs =>
      cases h : repLit.isPrefixOf (c :: cs)
      case true =>
        have hstep : replyStep (c :: cs) = some repLit.length := by simp [replyStep, h]
        have heq := eq_append_of_isPrefixOf h
        have hcs : cs = 'u' :: 's' :: 'e' :: 'r' :: 'n' :: 'a' :: 'm' :: 'e' :: cs.drop 8 := by
          have := congrArg List.tail heq
          simpa [repLit] using this
        rw [show countReplies (c :: cs) = countAll replyStep (c :: cs) from rfl,
          countAll_cons_some hstep, occCount, if_pos h]
        have hrl : repLit.length - 1 = 8 := rfl
        rw [hrl]
        have hrest : countReplies (cs.drop 8) = occCount repLit (cs.drop 8) :=
          ih _ (le_trans (length_drop_le _ _) (by simpa using hl))
        rw [show countAll replyStep (cs.drop 8) = countReplies (cs.drop 8) from rfl, hrest]
        conv_rhs => rw [hcs]
        rw [occCount_username_skip]
      case false =>
        have hstep : replyStep (c :: cs) = none := by simp [replyStep, h]
        rw [show countReplies (c :: cs) = countAll replyStep (c :: cs) from rfl,
          countAll_cons_none hstep, occCount_cons_neg h]
        exact ih cs (by simpa using hl)

/-- C8: the per-post reply count is exactly the number of positions at which
the literal `@username` occurs in the raw post — no other mention-like text is
counted — and therefore the batch average is the average of those occurrence
counts. -/
theorem C8_reply_count_is_literal_occurrences :
    (∀ t : List Char, countReplies t = occCount repLit t) ∧
      ∀ tl : List (List Char), avgOf countReplies tl = avgOf (occCount repLit) tl := by
  have hpt : ∀ t : List Char, countReplies t = occCount repLit t := fun t =>
    countReplies_eq_occCount_bounded t.length t le_rfl
  refine ⟨hpt, fun tl => ?_⟩
  have hmap : List.map countReplies tl = List.map (occCount repLit) tl :=
    List.map_congr_left fun t _ => hpt t
  simp only [avgOf, hmap]

/-! ### Claim C6 -/

/-- C6: on the two-post batch `["I love this!!! :) #great", "meh"]` the style
extractor computes hashtag average `1/2`, exclamation average `1/2` (maximal
runs of `!`), emoticon average `1/2`, and length average `27/2 = 13.5`. -/
theorem C6_spec_example_batch :
    (Dataset.init (some c6batch)).count_avg_hashtags = .ok (some (1 / 2 : ℚ)) ∧
    (Dataset.init (some c6batch)).count_avg_exclamations = .ok (some (1 / 2 : ℚ)) ∧
    (Dataset.init (some c6batch)).count_avg_emoticons = .ok (some (1 / 2 : ℚ)) ∧
    (Dataset.init (some c6batch)).count_avg_tweet_len = .ok (some (27 / 2 : ℚ)) := by
  have h1 : (c6batch.map countHashtags).sum = 1 := by decide
  have h2 : (c6batch.map countExclamations).sum = 1 := by decide
  have h3 : (c6batch.map countEmoticons).sum = 1 := by decide
  have h4 : (c6batch.map tweetLen).sum = 27 := by decide
  have hlen : c6batch.length = 2 := by decide
  refine ⟨?_, ?_, ?_, ?_⟩ <;>
    simp [Dataset.count_avg_hashtags, Dataset.count_avg_exclamations,
      Dataset.count_avg_emoticons, Dataset.count_avg_tweet_len, Dataset.init,
      avgOf, h1, h2, h3, h4, hlen]

/-! ### Claims C10 and C4 -/

lemma processEach_ok (corpus : String → Option (List (List Char))) (language : String)
    (S : List (List Char)) (hS : corpus language = some S) (tl : List (List Char)) :
    processEach corpus language tl = .ok (tl.map (normalizeCore S)) := by
  induction tl with
  | nil => rfl
  | cons t ts ih =>
    simp [processEach, process_tweet, stopwordsFor, hS, ih]

/-- C10: calling `process` before `generate_features` is not an error — it
succeeds and returns the combined document together with the six `None`
feature placeholders. -/
theorem C10_process_before_generate (corpus : String → Option (List (List Char)))
    (language : String) (S : List (List Char)) (tl : List (List Char))
    (hS : corpus language = some S) :
    (Dataset.init (some tl)).process corpus language =
      .ok ([joinSp (tl.map (normalizeCore S))], [none, none, none, none, none, none]) := by
  simp [Dataset.process, Dataset.init, processEach_ok corpus language S hS]

/-- Witness for C10 at a concrete batch and the English corpus. -/
theorem C10_witness :
    engCorpus "english" = some englishStopwords ∧
      (Dataset.init (some [['h', 'i']])).process engCorpus "english" =
        .ok ([joinSp ([['h', 'i']].map (normalizeCore englishStopwords))],
          [none, none, none, none, none, none]) :=
  ⟨rfl, C10_process_before_generate engCorpus "english" englishStopwords [['h', 'i']] rfl⟩

/-- C4: after `generate_features`, `process` returns the feature vector
`[avg_emoticons, avg_hashtags, avg_exclamations, avg_replies,
avg_repetitions, avg_length]` in exactly that order; the pipeline is a pure
function of the batch, so repeated calls on identical input return this same
vector. -/
theorem C4_feature_vector_order (corpus : String → Option (List (List Char)))
    (language : String) (S : List (List Char)) (tl : List (List Char))
    (hS : corpus language = some S) (htl : ¬ tl.length = 0) :
    ∃ d₁ : Dataset, (Dataset.init (some tl)).generate_features = .ok d₁ ∧
      d₁.process corpus language =
        .ok ([joinSp (tl.map (normalizeCore S))],
          [some (avgOf countEmoticons tl), some (avgOf countHashtags tl),
           some (avgOf countExclamations tl), some (avgOf countReplies tl),
           some (avgOf countRepetitions tl), some (avgOf tweetLen tl)]) := by
  refine ⟨{ timeline := some tl
            avg_emoticon_counts := some (avgOf countEmoticons tl)
            avg_hashtag_counts := some (avgOf countHashtags tl)
            avg_exclamation_counts := some (avgOf countExclamations tl)
            avg_reply_counts := some (avgOf countReplies tl)
            avg_repetition_counts := some (avgOf countRepetitions tl)
            avg_tweet_len := some (avgOf tweetLen tl)
            processed_timeline := none }, ?_, ?_⟩
  · simp [Dataset.generate_features, Dataset.count_avg_emoticons, Dataset.count_avg_hashtags,
      Dataset.count_avg_exclamations, Dataset.count_avg_replies, Dataset.count_avg_repetitions,
      Dataset.count_avg_tweet_len, Dataset.init, htl]
  · simp [Dataset.process, processEach_ok corpus language S hS]

/-- Witness for C4 at a concrete nonempty batch and the English corpus. -/
theorem C4_witness :
    engCorpus "english" = some englishStopwords ∧ ¬ ([['h', 'i']] : List (List Char)).length = 0 ∧
      ∃ d₁ : Dataset, (Dataset.init (some [['h', 'i']])).generate_features = .ok d₁ ∧
        d₁.process engCorpus "english" =
          .ok ([joinSp ([['h', 'i']].map (normalizeCore englishStopwords))],
            [some (avgOf countEmoticons [['h', 'i']]), some (avgOf countHashtags [['h', 'i']]),
             some (avgOf countExclamations [['h', 'i']]), some (avgOf countReplies [['h', 'i']]),
             some (avgOf countRepetitions [['h', 'i']]), some (avgOf tweetLen [['h', 'i']])]) :=
  ⟨rfl, by decide,
    C4_feature_vector_order engCorpus "english" englishStopwords [['h', 'i']] rfl (by decide)⟩

/-! ### Claim C2 -/

/-- C2 counterexample: a missing artifact does not produce the spec's
`MissingArtifactError` — the lookup `self.vectorizers[trait]` raises a plain
`KeyError` naming the trait. -/
theorem C2_counterexample :
    wBad.estimate_traits = .error (.keyError "open") ∧
      wBad.estimate_traits ≠ .error .missingArtifactError := by
  have h1 : wBad.estimate_traits = .error (.keyError "open") := rfl
  refine ⟨h1, ?_⟩
  rw [h1]
  intro hcontra
  simp at hcontra

/-- C2 (amended): if any configured trait has no loaded vectorizer or no
loaded model, the whole `estimate_traits` call fails with an error (a
`KeyError` at the missing trait unless an earlier trait already failed); it
never returns a mapping, so no partial mapping with silently absent traits is
possible. -/
theorem C2_missing_artifact_fails_whole_call (p : Predictor) (t : String)
    (ht : t ∈ p.personalities)
    (h : dictGet t p.vectorizers = none ∨ dictGet t p.models = none) :
    ∃ e, p.estimate_traits = .error e := by
  suffices h' : ∀ ts, t ∈ ts → ∃ e, estimateGo p ts = .error e by
    exact h' p.personalities ht
  intro ts hts
  induction ts with
  | nil => cases hts
  | cons u us ih =>
    by_cases hut : u = t
    · subst hut
      rcases h with hv | hm
      · exact ⟨.keyError u, by simp [estimateGo, Predictor.load_input, hv]⟩
      · cases hvec : dictGet u p.vectorizers with
        | none => exact ⟨.keyError u, by simp [estimateGo, Predictor.load_input, hvec]⟩
        | some v => exact ⟨.keyError u, by simp [estimateGo, Predictor.load_input, hvec, hm]⟩
    · have hts' : t ∈ us := by
        cases hts with
        | head => exact absurd rfl hut
        | tail _ hmem => exact hmem
      cases hlo : p.load_input u with
      | error e => exact ⟨e, by simp [estimateGo, hlo]⟩
      | ok iv =>
        cases hm : dictGet u p.models with
        | none => exact ⟨.keyError u, by simp [estimateGo, hlo, hm]⟩
        | some m =>
          cases hh : (m.predict iv).head? with
          | none => exact ⟨.indexError, by simp [estimateGo, hlo, hm, hh]⟩
          | some y =>
            obtain ⟨e, he⟩ := ih hts'
            exact ⟨e, by simp [estimateGo, hlo, hm, hh, he]⟩

/-- Witness for the amended C2 at a concrete predictor missing both artifacts
for its one configured trait. -/
theorem C2_witness :
    ("open" ∈ wBad.personalities ∧
        (dictGet "open" wBad.vectorizers = none ∨ dictGet "open" wBad.models = none)) ∧
      ∃ e, wBad.estimate_traits = .error e :=
  ⟨⟨by decide, Or.inl rfl⟩,
    C2_missing_artifact_fails_whole_call wBad "open" (by decide) (Or.inl rfl)⟩

/-! ### Claim C5 -/

/-- C5: when every configured trait has a loaded vectorizer and model (and its
model yields an output on the input row), `estimate_traits` returns a mapping
whose keys are exactly the configured trait list in order, and the value for
each trait is the first output of that trait's model on its input row, rounded
to exactly 2 decimal places — which is what `traitScore?` computes. -/
theorem C5_estimate_complete (p : Predictor)
    (h : ∀ t ∈ p.personalities, (traitScore? p t).isSome = true) :
    p.estimate_traits = .ok (p.personalities.map fun t => (t, (traitScore? p t).getD 0)) ∧
      (p.personalities.map fun t => (t, (traitScore? p t).getD 0)).map Prod.fst =
        p.personalities := by
  constructor
  · suffices h' : ∀ ts, (∀ t ∈ ts, (traitScore? p t).isSome = true) →
        estimateGo p ts = .ok (ts.map fun t => (t, (traitScore? p t).getD 0)) by
      exact h' p.personalities h
    intro ts hts
    induction ts with
    | nil => rfl
    | cons u us ih =>
      have hu := hts u (by simp)
      cases hv : dictGet u p.vectorizers with
      | none => simp [traitScore?, hv] at hu
      | some v =>
        cases hm : dictGet u p.models with
        | none => simp [traitScore?, hv, hm] at hu
        | some m =>
          cases hh : (m.predict (List.zipWith (· ++ ·) (v.transform p.timeline)
              [p.features])).head? with
          | none => simp [traitScore?, hv, hm, hh] at hu
          | some y =>
            have hscore : traitScore? p u = some (round2 y) := by
              simp [traitScore?, hv, hm, hh]
            have hrest := ih (fun t htm => hts t (by simp [htm]))
            simp [estimateGo, Predictor.load_input, hv, hm, hh, hrest, hscore]
  · have : (Prod.fst ∘ fun t => (t, (traitScore? p t).getD 0)) = id := by
      funext t
      rfl
    rw [List.map_map, this, List.map_id]

/-- Witness for C5 at a fully loaded two-trait predictor. -/
theorem C5_witness :
    (∀ t ∈ wPred.personalities, (traitScore? wPred t).isSome = true) ∧
      wPred.estimate_traits =
        .ok (wPred.personalities.map fun t => (t, (traitScore? wPred t).getD 0)) :=
  ⟨by decide, (C5_estimate_complete wPred (by decide)).1⟩

/-! ### Runs of four: basic facts -/

lemma hasFourRun_short_two (x : Char) (xs : List Char) (h : xs.length ≤ 1) :
    hasFourRun (x :: xs) = false := by
  cases xs with
  | nil => rfl
  | cons a t =>
    cases t with
    | nil => rfl
    | cons b u => simp at h

lemma hasFourRun_cons_true_of_take {x : Char} {xs : List Char}
    (h : xs.take 3 = [x, x, x]) : hasFourRun (x :: xs) = true := by
  cases xs with
  | nil => simp at h
  | cons a t =>
    cases t with
    | nil => simp at h
    | cons b u =>
      cases u with
      | nil => simp at h
      | cons d r =>
        simp only [List.take, List.cons.injEq] at h
        obtain ⟨rfl, rfl, rfl, -⟩ := h
        simp [hasFourRun]

lemma hasFourRun_tail {x : Char} {xs : List Char} (h : hasFourRun (x :: xs) = false) :
    hasFourRun xs = false := by
  cases xs with
  | nil => rfl
  | cons a t =>
    cases t with
    | nil => rfl
    | cons b u =>
      cases u with
      | nil => rfl
      | cons d r =>
        simp only [hasFourRun, Bool.or_eq_false_iff] at h
        exact h.2

lemma hasFourRun_cons_of {x : Char} {xs : List Char} (h3 : xs.take 3 ≠ [x, x, x])
    (h : hasFourRun xs = false) : hasFourRun (x :: xs) = false := by
  cases xs with
  | nil => rfl
  | cons a t =>
    cases t with
    | nil => rfl
    | cons b u =>
      cases u with
      | nil => rfl
      | cons d r =>
        simp only [hasFourRun, Bool.or_eq_false_iff]
        refine ⟨?_, h⟩
        by_cases hxa : x = a
        · by_cases hab : a = b
          · by_cases hbd : b = d
            · subst hxa
              subst hab
              subst hbd
              exact absurd (by simp [List.take]) h3
            · simp [hbd]
          · simp [hab]
        · simp [hxa]

lemma hasFourRun_append_right {a b : List Char} (h : hasFourRun (a ++ b) = false) :
    hasFourRun b = false := by
  induction a with
  | nil => simpa using h
  | cons x a ih => exact ih (hasFourRun_tail h)

lemma hasFourRun_append_left {a b : List Char} (h : hasFourRun (a ++ b) = false) :
    hasFourRun a = false := by
  induction a with
  | nil => rfl
  | cons x a' ih =>
    refine hasFourRun_cons_of ?_ (ih (hasFourRun_tail h))
    intro htake
    by_cases hlen : 3 ≤ a'.length
    · have htk : (a' ++ b).take 3 = [x, x, x] := by
        rw [List.take_append_of_le_length hlen, htake]
      have htrue := hasFourRun_cons_true_of_take htk
      rw [List.cons_append, htrue] at h
      simp at h
    · have hself : a'.take 3 = a' := List.take_of_length_le (by omega)
      rw [hself] at htake
      have : a'.length = 3 := by rw [htake]; rfl
      omega

lemma take_head_of_replicate3 {R : List Char} {c : Char} (h : R.take 3 = [c, c, c]) :
    R.head? = some c := by
  cases R with
  | nil => simp at h
  | cons r R' =>
    simp only [List.take, List.cons.injEq] at h
    simp [h.1]

lemma take_head_of_replicate2 {R : List Char} {c : Char} (h : R.take 2 = [c, c]) :
    R.head? = some c := by
  cases R with
  | nil => simp at h
  | cons r R' =>
    simp only [List.take, List.cons.injEq] at h
    simp [h.1]

lemma take_head_of_replicate1 {R : List Char} {c : Char} (h : R.take 1 = [c]) :
    R.head? = some c := by
  cases R with
  | nil => simp at h
  | cons r R' =>
    simp only [List.take, List.cons.injEq] at h
    simp [h.1]

lemma run4_hasFourRun {c : Char} {cs : List Char} (h : 3 ≤ runLen c cs) :
    hasFourRun (c :: cs) = true := by
  apply hasFourRun_cons_true_of_take
  cases cs with
  | nil => simp [runLen] at h
  | cons a t =>
    by_cases ha : a = c
    · subst ha
      cases t with
      | nil => simp [runLen] at h
      | cons b u =>
        by_cases hb : b = a
        · subst hb
          cases u with
          | nil => simp [runLen] at h
          | cons d r =>
            by_cases hd : d = b
            · subst hd
              simp [List.take]
            · simp [runLen, hd] at h
        · simp [runLen, hb] at h
    · simp [runLen, ha] at h

lemma collapseCode_id {l : List Char} (h : hasFourRun l = false) : collapseCode l = l := by
  induction l with
  | nil => rfl
  | cons c cs ih =>
    have h3 : ¬ 3 ≤ runLen c cs := by
      intro hr
      rw [run4_hasFourRun hr] at h
      simp at h
    rw [collapseCode_cons_small (by tauto), ih (hasFourRun_tail h)]

lemma head?_collapseCode (l : List Char) : (collapseCode l).head? = l.head? := by
  cases l with
  | nil => rfl
  | cons c cs =>
    by_cases h : c ≠ '\n' ∧ 3 ≤ runLen c cs
    · rw [collapseCode_cons_big h.1 h.2]
      rfl
    · rw [collapseCode_cons_small h]
      rfl

lemma mem_collapseCode_bounded :
    ∀ (n : Nat) (l : List Char), l.length ≤ n → ∀ c ∈ collapseCode l, c ∈ l := by
  intro n
  induction n with
  | zero =>
    intro l hl
    have : l = [] := by cases l <;> simp_all
    subst this
    simp [collapseCode_nil]
  | succ n ih =>
    intro l hl
    cases l with
    | nil => simp [collapseCode_nil]
    | cons c cs =>
      by_cases h : c ≠ '\n' ∧ 3 ≤ runLen c cs
      · rw [collapseCode_cons_big h.1 h.2]
        intro x hx
        simp only [List.mem_cons] at hx
        rcases hx with rfl | rfl | rfl | hx
        · simp
        · simp
        · simp
        · have hx' := ih (cs.drop (runLen c cs))
            (le_trans (length_drop_le _ _) (by simpa using hl)) x hx
          exact List.mem_cons_of_mem _ (List.mem_of_mem_drop hx')
      · rw [collapseCode_cons_small h]
        intro x hx
        simp only [List.mem_cons] at hx
        rcases hx with rfl | hx
        · simp
        · exact List.mem_cons_of_mem _ (ih cs (by simpa using hl) x hx)

lemma collapseCode_run :
    ∀ (n : Nat) (c : Char) (cs : List Char), c ≠ '\n' → runLen c cs = n →
      collapseCode (c :: cs) =
        List.replicate (min (n + 1) 3) c ++ collapseCode (cs.drop n) := by
  intro n
  induction n with
  | zero =>
    intro c cs hc h0
    rw [collapseCode_cons_small (by
      rintro ⟨-, hr⟩
      rw [h0] at hr
      omega)]
    simp [h0]
  | succ n ih =>
    intro n_c cs hc hsucc
    by_cases h3 : 3 ≤ n + 1
    · rw [collapseCode_cons_big hc (by rw [hsucc]; omega), hsucc]
      have hmin : min (n + 1 + 1) 3 = 3 := by
        rw [Nat.min_eq_right (by omega)]
      rw [hmin]
      rfl
    · cases cs with
      | nil => simp [runLen] at hsucc
      | cons d ds =>
        by_cases hd : d = n_c
        · subst hd
          have hds : runLen d ds = n := by
            have hstep : runLen d (d :: ds) = runLen d ds + 1 := by simp [runLen]
            rw [hstep] at hsucc
            omega
          rw [collapseCode_cons_small (by
            rintro ⟨-, hr⟩
            rw [hsucc] at hr
            omega)]
          rw [ih d ds hc hds]
          have hm1 : min (n + 1) 3 = n + 1 := Nat.min_eq_left (by omega)
          have hm2 : min (n + 1 + 1) 3 = n + 2 := Nat.min_eq_left (by omega)
          rw [hm1, hm2, List.drop_succ_cons]
          simp [List.replicate_succ]
        · simp [runLen, hd] at hsucc

lemma hasFourRun_replicate_app {c : Char} {R : List Char} {m : Nat} (hm : m ≤ 3)
    (hhead : R.head? ≠ some c) (hR : hasFourRun R = false) :
    hasFourRun (List.replicate m c ++ R) = false := by
  have h1 : hasFourRun (c :: R) = false := by
    apply hasFourRun_cons_of ?_ hR
    intro ht
    exact hhead (take_head_of_replicate3 ht)
  have h2 : hasFourRun (c :: c :: R) = false := by
    apply hasFourRun_cons_of ?_ h1
    intro ht
    have ht2 : R.take 2 = [c, c] := by
      cases R with
      | nil => simp at ht
      | cons r R' =>
        simp only [List.take, List.cons.injEq] at ht
        simp [List.take, ht.1, ht.2]
    exact hhead (take_head_of_replicate2 ht2)
  have h3 : hasFourRun (c :: c :: c :: R) = false := by
    apply hasFourRun_cons_of ?_ h2
    intro ht
    have ht1 : R.take 1 = [c] := by
      cases R with
      | nil => simp at ht
      | cons r R' =>
        simp only [List.take, List.cons.injEq] at ht
        simp [List.take, ht.1, ht.2]
    exact hhead (take_head_of_replicate1 ht1)
  rcases m with - | - | - | - | m4
  · exact hR
  · exact h1
  · exact h2
  · exact h3
  · omega

lemma collapseCode_no4_bounded :
    ∀ (n : Nat) (l : List Char), l.length ≤ n → (∀ c ∈ l, c ≠ '\n') →
      hasFourRun (collapseCode l) = false := by
  intro n
  induction n with
  | zero =>
    intro l hl _
    have : l = [] := by cases l <;> simp_all
    subst this
    rfl
  | succ n ih =>
    intro l hl hnl
    cases l with
    | nil => rfl
    | cons c cs =>
      have hc : c ≠ '\n' := hnl c (by simp)
      rw [collapseCode_run (runLen c cs) c cs hc rfl]
      apply hasFourRun_replicate_app (Nat.min_le_right _ _)
      · rw [head?_collapseCode]
        exact head?_drop_runLen c cs
      · exact ih _ (le_trans (length_drop_le _ _) (by simpa using hl))
          (fun d hd => hnl d (List.mem_cons_of_mem _ (List.mem_of_mem_drop hd)))

lemma collapseCode_no4 {l : List Char} (hnl : ∀ c ∈ l, c ≠ '\n') :
    hasFourRun (collapseCode l) = false :=
  collapseCode_no4_bounded l.length l le_rfl hnl

lemma mem_collapseCode {l : List Char} {c : Char} (h : c ∈ collapseCode l) : c ∈ l :=
  mem_collapseCode_bounded l.length l le_rfl c h

/-! ### The URL and reply rewrites fix strings without their trigger characters -/

lemma urlStep_none_of_no_colon {l : List Char} (h : ∀ c ∈ l, c ≠ ':') : urlStep l = none := by
  unfold urlStep
  cases hfind : urlLits.find? (fun p => p.isPrefixOf l) with
  | none => rfl
  | some p =>
    exfalso
    have hp := List.find?_some hfind
    have hmem := List.mem_of_find?_eq_some hfind
    have hcolon : ':' ∈ p := by
      have hcases : p = ['h', 't', 't', 'p', 's', ':', '/', '/'] ∨
          p = ['h', 't', 't', 'p', ':', '/', '/'] ∨ p = ['f', 't', 'p', ':', '/', '/'] := by
        simpa [urlLits] using hmem
      rcases hcases with rfl | rfl | rfl <;> decide
    exact h ':' (mem_of_isPrefixOf hp ':' hcolon) rfl

lemma urlSub_id_bounded :
    ∀ (n : Nat) (l : List Char), l.length ≤ n → (∀ c ∈ l, c ≠ ':') → urlSub l = l := by
  intro n
  induction n with
  | zero =>
    intro l hl _
    have : l = [] := by cases l <;> simp_all
    subst this
    rfl
  | succ n ih =>
    intro l hl hcol
    cases l with
    | nil => rfl
    | cons c cs =>
      rw [urlSub, subAll_cons_none (urlStep_none_of_no_colon hcol)]
      have := ih cs (by simpa using hl) (fun d hd => hcol d (List.mem_cons_of_mem _ hd))
      rw [show subAll urlStep cs = urlSub cs from rfl, this]

lemma urlSub_id {l : List Char} (h : ∀ c ∈ l, c ≠ ':') : urlSub l = l :=
  urlSub_id_bounded l.length l le_rfl h

lemma replyTagStep_none_of_no_at {l : List Char} (h : ∀ c ∈ l, c ≠ '@') :
    replyTagStep l = none := by
  unfold replyTagStep
  cases hpre : repLit.isPrefixOf l with
  | false => simp
  | true =>
    exfalso
    exact h '@' (mem_of_isPrefixOf hpre '@' (by decide)) rfl

lemma repSub_id_bounded :
    ∀ (n : Nat) (l : List Char), l.length ≤ n → (∀ c ∈ l, c ≠ '@') → repSub l = l := by
  intro n
  induction n with
  | zero =>
    intro l hl _
    have : l = [] := by cases l <;> simp_all
    subst this
    rfl
  | succ n ih =>
    intro l hl hat
    cases l with
    | nil => rfl
    | cons c cs =>
      rw [repSub, subAll_cons_none (replyTagStep_none_of_no_at hat)]
      have := ih cs (by simpa using hl) (fun d hd => hat d (List.mem_cons_of_mem _ hd))
      rw [show subAll replyTagStep cs = repSub cs from rfl, this]

lemma repSub_id {l : List Char} (h : ∀ c ∈ l, c ≠ '@') : repSub l = l :=
  repSub_id_bounded l.length l le_rfl h

/-! ### Joining and re-tokenizing canonical word lists -/

lemma joinSp_cons₂ (w x : List Char) (ws : List (List Char)) :
    joinSp (w :: x :: ws) = w ++ ' ' :: joinSp (x :: ws) := rfl

lemma mem_joinSp {c : Char} :
    ∀ {ws : List (List Char)}, c ∈ joinSp ws → c = ' ' ∨ ∃ w ∈ ws, c ∈ w := by
  intro ws
  induction ws with
  | nil =>
    intro hc
    simp [joinSp] at hc
  | cons w ws' ih =>
    intro hc
    cases ws' with
    | nil => exact Or.inr ⟨w, by simp, by simpa [joinSp] using hc⟩
    | cons x ws'' =>
      rw [joinSp_cons₂] at hc
      rcases List.mem_append.1 hc with hw | hrest
      · exact Or.inr ⟨w, by simp, hw⟩
      · rcases List.mem_cons.1 hrest with rfl | hj
        · exact Or.inl rfl
        · rcases ih hj with h' | ⟨u, hu, hcu⟩
          · exact Or.inl h'
          · exact Or.inr ⟨u, List.mem_cons_of_mem _ hu, hcu⟩

lemma head?_joinSp_cons {x : List Char} (ws : List (List Char)) (hx : x ≠ []) :
    (joinSp (x :: ws)).head? = x.head? := by
  cases ws with
  | nil => rfl
  | cons y ws' =>
    rw [joinSp_cons₂]
    cases x with
    | nil => exact absurd rfl hx
    | cons c x' => rfl

lemma tokens_mem_bounded :
    ∀ (n : Nat) (l : List Char), l.length ≤ n → ∀ w ∈ tokens l,
      w ≠ [] ∧ ∀ c ∈ w, isLowerAlpha c = true := by
  intro n
  induction n with
  | zero =>
    intro l hl
    have : l = [] := by cases l <;> simp_all
    subst this
    simp [tokens_nil]
  | succ n ih =>
    intro l hl
    cases l with
    | nil => simp [tokens_nil]
    | cons c cs =>
      by_cases hc : isAsciiLetter c
      · rw [tokens_cons_letter hc]
        intro w hw
        rcases List.mem_cons.1 hw with rfl | hw'
        · refine ⟨by simp, ?_⟩
          intro d hd
          rcases List.mem_cons.1 hd with rfl | hd'
          · exact isLowerAlpha_lowerChar hc
          · rcases List.mem_map.1 hd' with ⟨e, he, rfl⟩
            exact isLowerAlpha_lowerChar (List.mem_takeWhile_imp he)
        · exact ih _ (le_trans (length_dropWhile_le _ _) (by simpa using hl)) w hw'
      · rw [tokens_cons_not (by simpa using hc)]
        exact fun w hw => ih cs (by simpa using hl) w hw

lemma tokens_mem (l : List Char) :
    ∀ w ∈ tokens l, w ≠ [] ∧ ∀ c ∈ w, isLowerAlpha c = true :=
  tokens_mem_bounded l.length l le_rfl

lemma tokens_word {w : List Char} (hne : w ≠ []) (hlw : ∀ c ∈ w, isLowerAlpha c = true) :
    tokens w = [w] := by
  cases w with
  | nil => exact absurd rfl hne
  | cons c w' =>
    have hc : isAsciiLetter c = true := isAsciiLetter_of_lower (hlw c (by simp))
    rw [tokens_cons_letter hc]
    have htw : w'.takeWhile isAsciiLetter = w' :=
      List.takeWhile_eq_self_iff.mpr
        (fun d hd => isAsciiLetter_of_lower (hlw d (by simp [hd])))
    have hdw : w'.dropWhile isAsciiLetter = [] :=
      List.dropWhile_eq_nil_iff.mpr
        (fun d hd => isAsciiLetter_of_lower (hlw d (by simp [hd])))
    have hmap : w'.map lowerChar = w' := by
      have hcg : List.map lowerChar w' = List.map (fun d => d) w' :=
        List.map_congr_left
          (fun d hd => lowerChar_eq_self_of_lower (hlw d (List.mem_cons_of_mem _ hd)))
      simpa using hcg
    rw [htw, hdw, tokens_nil, lowerChar_eq_self_of_lower (hlw c (by simp)), hmap]

lemma tokens_joinSp :
    ∀ (ws : List (List Char)),
      (∀ w ∈ ws, w ≠ [] ∧ ∀ c ∈ w, isLowerAlpha c = true) → tokens (joinSp ws) = ws := by
  intro ws
  induction ws with
  | nil =>
    intro
    rfl
  | cons w ws' ih =>
    intro hws
    obtain ⟨hwne, hwl⟩ := hws w (by simp)
    cases ws' with
    | nil => exact tokens_word hwne hwl
    | cons x ws'' =>
      rw [joinSp_cons₂]
      cases w with
      | nil => exact absurd rfl hwne
      | cons c w' =>
        have hc : isAsciiLetter c = true := isAsciiLetter_of_lower (hwl c (by simp))
        rw [List.cons_append, tokens_cons_letter hc]
        have hall : ∀ d ∈ w', isAsciiLetter d = true :=
          fun d hd => isAsciiLetter_of_lower (hwl d (by simp [hd]))
        have hsp : isAsciiLetter ' ' = false := by decide
        obtain ⟨htw, hdw⟩ := takeWhile_append_of_all ' ' (joinSp (x :: ws'')) hall hsp
        rw [htw, hdw, tokens_cons_not hsp, ih (fun u hu => hws u (List.mem_cons_of_mem _ hu))]
        have hmap : w'.map lowerChar = w' := by
          have hcg : List.map lowerChar w' = List.map (fun d => d) w' :=
            List.map_congr_left
              (fun d hd => lowerChar_eq_self_of_lower (hwl d (List.mem_cons_of_mem _ hd)))
          simpa using hcg
        rw [lowerChar_eq_self_of_lower (hwl c (by simp)), hmap]

/-! ### Tokens of a run-free lower-case string are run-free -/

lemma tokens_no4_bounded :
    ∀ (n : Nat) (l : List Char), l.length ≤ n →
      (∀ c ∈ l, isAsciiLetter c = true → isLowerAlpha c = true) →
      hasFourRun l = false → ∀ w ∈ tokens l, hasFourRun w = false := by
  intro n
  induction n with
  | zero =>
    intro l hl _ _
    have : l = [] := by cases l <;> simp_all
    subst this
    simp [tokens_nil]
  | succ n ih =>
    intro l hl hlow h4
    cases l with
    | nil => simp [tokens_nil]
    | cons c cs =>
      have hsplit : c :: cs = (c :: cs.takeWhile isAsciiLetter) ++ cs.dropWhile isAsciiLetter := by
        rw [List.cons_append, List.takeWhile_append_dropWhile]
      by_cases hc : isAsciiLetter c
      · rw [tokens_cons_letter hc]
        intro w hw
        rcases List.mem_cons.1 hw with rfl | hw'
        · have hcl : isLowerAlpha c = true := hlow c (by simp) hc
          have hmap : (cs.takeWhile isAsciiLetter).map lowerChar = cs.takeWhile isAsciiLetter := by
            have hcg : List.map lowerChar (cs.takeWhile isAsciiLetter) =
                List.map (fun d => d) (cs.takeWhile isAsciiLetter) :=
              List.map_congr_left (fun d hd => by
                have hdcs : d ∈ cs := by
                  rw [← List.takeWhile_append_dropWhile isAsciiLetter cs]
                  exact List.mem_append.2 (Or.inl hd)
                exact lowerChar_eq_self_of_lower
                  (hlow d (List.mem_cons_of_mem _ hdcs) (List.mem_takeWhile_imp hd)))
            simpa using hcg
          rw [lowerChar_eq_self_of_lower hcl, hmap]
          exact hasFourRun_append_left (hsplit ▸ h4)
        · have h4drop : hasFourRun (cs.dropWhile isAsciiLetter) = false :=
            hasFourRun_append_right (hsplit ▸ h4)
          refine ih _ (le_trans (length_dropWhile_le _ _) (by simpa using hl)) ?_ h4drop w hw'
          intro d hd
          have hdcs : d ∈ cs := by
            rw [← List.takeWhile_append_dropWhile isAsciiLetter cs]
            exact List.mem_append.2 (Or.inr hd)
          exact hlow d (List.mem_cons_of_mem _ hdcs)
      · rw [tokens_cons_not (by simpa using hc)]
        exact ih cs (by simpa using hl) (fun d hd => hlow d (List.mem_cons_of_mem _ hd))
          (hasFourRun_tail h4)

/-! ### Appending words and separators preserves run-freeness -/

lemma hasFourRun_word_append :
    ∀ (w X : List Char), (∀ c ∈ w, isLowerAlpha c = true) → hasFourRun w = false →
      hasFourRun X = false → X.head? = some ' ' → hasFourRun (w ++ X) = false := by
  intro w
  induction w with
  | nil =>
    intro X _ _ hX _
    simpa using hX
  | cons c w' ih =>
    intro X hlw h4 hX hXh
    rw [List.cons_append]
    apply hasFourRun_cons_of ?_
      (ih X (fun d hd => hlw d (List.mem_cons_of_mem _ hd)) (hasFourRun_tail h4) hX hXh)
    intro htake
    have hc : isLowerAlpha c = true := hlw c (by simp)
    have hcspace : ¬ c = ' ' := by
      intro hcc
      rw [hcc] at hc
      exact absurd hc (by decide)
    by_cases hlen : 3 ≤ w'.length
    · rw [List.take_append_of_le_length hlen] at htake
      have htrue := hasFourRun_cons_true_of_take htake
      rw [htrue] at h4
      simp at h4
    · rcases w' with - | ⟨a, - | ⟨b, - | ⟨d, r⟩⟩⟩
      · have htX : X.take 3 = [c, c, c] := by simpa using htake
        have hh := take_head_of_replicate3 htX
        rw [hXh] at hh
        have hcc : (' ' : Char) = c := by simpa using hh
        exact hcspace hcc.symm
      · have h' : a = c ∧ X.take 2 = [c, c] := by
          simpa [List.take] using htake
        have hh := take_head_of_replicate2 h'.2
        rw [hXh] at hh
        have hcc : (' ' : Char) = c := by simpa using hh
        exact hcspace hcc.symm
      · have h' : a = c ∧ b = c ∧ X.take 1 = [c] := by
          simpa [List.take] using htake
        have hh := take_head_of_replicate1 h'.2.2
        rw [hXh] at hh
        have hcc : (' ' : Char) = c := by simpa using hh
        exact hcspace hcc.symm
      · simp only [List.length_cons] at hlen
        omega

lemma hasFourRun_joinSp :
    ∀ (ws : List (List Char)),
      (∀ w ∈ ws, w ≠ [] ∧ (∀ c ∈ w, isLowerAlpha c = true) ∧ hasFourRun w = false) →
      hasFourRun (joinSp ws) = false := by
  intro ws
  induction ws with
  | nil =>
    intro
    rfl
  | cons w ws' ih =>
    intro hws
    obtain ⟨hne, hlw, h4⟩ := hws w (by simp)
    cases ws' with
    | nil => simpa [joinSp] using h4
    | cons x ws'' =>
      rw [joinSp_cons₂]
      apply hasFourRun_word_append w (' ' :: joinSp (x :: ws'')) hlw h4 ?_ rfl
      apply hasFourRun_cons_of
      · intro htake
        have hhead := take_head_of_replicate3 htake
        obtain ⟨hxne, hxl, -⟩ := hws x (by simp)
        rw [head?_joinSp_cons ws'' hxne] at hhead
        cases x with
        | nil => exact absurd rfl hxne
        | cons cx x' =>
          have hcx : cx = ' ' := by simpa using hhead
          have := hxl cx (by simp)
          rw [hcx] at this
          exact absurd this (by decide)
      · exact ih (fun u hu => hws u (List.mem_cons_of_mem _ hu))

/-! ### Normalized output is canonical, and canonical strings are fixpoints -/

lemma normalizeCore_eq_tokens (S : List (List Char)) (t : List Char) :
    normalizeCore S t = joinSp (stopFilter S (tokens (collapseCode (repSub (urlSub t))))) := by
  unfold normalizeCore
  rw [splitWs_lower_letters]

lemma mem_normalizeCore (S : List (List Char)) (t : List Char) :
    ∀ c ∈ normalizeCore S t, c = ' ' ∨ isLowerAlpha c = true := by
  intro c hc
  rw [normalizeCore_eq_tokens] at hc
  rcases mem_joinSp hc with h | ⟨w, hw, hcw⟩
  · exact Or.inl h
  · have hw' := (List.mem_filter.1 hw).1
    exact Or.inr ((tokens_mem _ w hw').2 c hcw)

lemma normalizeCore_fix {S : List (List Char)} {ws : List (List Char)}
    (hws : ∀ w ∈ ws, w ≠ [] ∧ (∀ c ∈ w, isLowerAlpha c = true) ∧
      hasFourRun w = false ∧ decide (¬ w ∈ S) = true) :
    normalizeCore S (joinSp ws) = joinSp ws := by
  have hchars : ∀ c ∈ joinSp ws, c = ' ' ∨ isLowerAlpha c = true := by
    intro c hc
    rcases mem_joinSp hc with h | ⟨w, hw, hcw⟩
    · exact Or.inl h
    · exact Or.inr ((hws w hw).2.1 c hcw)
  have hnc : ∀ c ∈ joinSp ws, c ≠ ':' := by
    intro c hc hcc
    subst hcc
    rcases hchars ':' hc with h | h
    · exact absurd h (by decide)
    · exact absurd h (by decide)
  have hna : ∀ c ∈ joinSp ws, c ≠ '@' := by
    intro c hc hcc
    subst hcc
    rcases hchars '@' hc with h | h
    · exact absurd h (by decide)
    · exact absurd h (by decide)
  have h4 : hasFourRun (joinSp ws) = false :=
    hasFourRun_joinSp ws (fun w hw => ⟨(hws w hw).1, (hws w hw).2.1, (hws w hw).2.2.1⟩)
  rw [normalizeCore_eq_tokens, urlSub_id hnc, repSub_id hna, collapseCode_id h4,
    tokens_joinSp ws (fun w hw => ⟨(hws w hw).1, (hws w hw).2.1⟩)]
  have hfil : stopFilter S ws = ws := by
    unfold stopFilter
    exact List.filter_eq_self.mpr (fun w hw => (hws w hw).2.2.2)
  rw [hfil]

lemma normalizeCore_twice_canonical (S : List (List Char)) (t : List Char) :
    ∃ ws, normalizeCore S (normalizeCore S t) = joinSp ws ∧
      ∀ w ∈ ws, w ≠ [] ∧ (∀ c ∈ w, isLowerAlpha c = true) ∧
        hasFourRun w = false ∧ decide (¬ w ∈ S) = true := by
  have hchars := mem_normalizeCore S t
  have hnc : ∀ c ∈ normalizeCore S t, c ≠ ':' := by
    intro c hc hcc
    subst hcc
    rcases hchars ':' hc with h | h
    · exact absurd h (by decide)
    · exact absurd h (by decide)
  have hna : ∀ c ∈ normalizeCore S t, c ≠ '@' := by
    intro c hc hcc
    subst hcc
    rcases hchars '@' hc with h | h
    · exact absurd h (by decide)
    · exact absurd h (by decide)
  have hnl : ∀ c ∈ normalizeCore S t, c ≠ '\n' := by
    intro c hc hcc
    subst hcc
    rcases hchars '\n' hc with h | h
    · exact absurd h (by decide)
    · exact absurd h (by decide)
  refine ⟨stopFilter S (tokens (collapseCode (normalizeCore S t))), ?_, ?_⟩
  · rw [normalizeCore_eq_tokens S (normalizeCore S t), urlSub_id hnc, repSub_id hna]
  · intro w hw
    have hwt := (List.mem_filter.1 hw).1
    have hfil := (List.mem_filter.1 hw).2
    have h4O : hasFourRun (collapseCode (normalizeCore S t)) = false := collapseCode_no4 hnl
    have hlowO : ∀ c ∈ collapseCode (normalizeCore S t),
        isAsciiLetter c = true → isLowerAlpha c = true := by
      intro c hc hletter
      rcases hchars c (mem_collapseCode hc) with h | h
      · rw [h] at hletter
        exact absurd hletter (by decide)
      · exact h
    exact ⟨(tokens_mem _ w hwt).1, (tokens_mem _ w hwt).2,
      tokens_no4_bounded (collapseCode (normalizeCore S t)).length _ le_rfl hlowO h4O w hwt,
      hfil⟩

/-! ### Claim C7, amended -/

/-- C7 (amended): normalizing twice reaches a fixpoint — for every stopword
set and every input, a third application of `normalizeCore` changes nothing.
(One application is not idempotent: see the counterexample above.) -/
theorem C7_normalize_twice_is_fixpoint (S : List (List Char)) (t : List Char) :
    normalizeCore S (normalizeCore S (normalizeCore S t)) =
      normalizeCore S (normalizeCore S t) := by
  obtain ⟨ws, heq, hws⟩ := normalizeCore_twice_canonical S t
  rw [heq, normalizeCore_fix hws]

end App
